import Mathlib

/-!
# Verification of `scripts/trailing_leg_count.py`

A shallow embedding of the core routines of the spreadsheet trailing-average
script: the row-stream cell resolution (`iter_rows`), the monthly weighted
aggregator (`monthly_weighted_avg`), the trailing-window smoother
(`trailing_average`), the operator ranker (`top_operators`), and the
per-operator aggregator (`operator_trailing`).

Python floats are modelled as rationals (`Rat`); Python exceptions are
modelled by the explicit error type `PyErr` and `Except`.  String-to-number
conversion (`int(...)`, `float(...)`) is modelled on the plain decimal
fragment actually exercised by the data: an optional sign, digits, and an
optional fractional part; every other string fails to parse, as it raises
`ValueError` in Python.
-/

/-- Python exceptions that the script can raise. -/
inductive PyErr : Type where
  | keyError (name : String)
  | indexError
  | valueError (s : String)
  | zeroDivisionError
  | stopIteration
  deriving DecidableEq, Repr

instance {ε α : Type} [DecidableEq ε] [DecidableEq α] :
    DecidableEq (Except ε α)
  | .error e, .error f =>
    if h : e = f then .isTrue (by rw [h])
    else .isFalse (by intro hh; cases hh; exact h rfl)
  | .error _, .ok _ => .isFalse (by intro hh; cases hh)
  | .ok _, .error _ => .isFalse (by intro hh; cases hh)
  | .ok a, .ok b =>
    if h : a = b then .isTrue (by rw [h])
    else .isFalse (by intro hh; cases hh; exact h rfl)

/-- Lift an `Option` to `Except`, raising `e` on `none`. -/
def toExcept {α : Type} (e : PyErr) : Option α → Except PyErr α
  | none => .error e
  | some a => .ok a

/-- `List.mapM` specialised to `Except PyErr`, written by structural recursion
so that proofs can unfold it directly.  Models a Python loop that transforms
each element in order and propagates the first exception. -/
def mapE {α β : Type} (f : α → Except PyErr β) : List α → Except PyErr (List β)
  | [] => .ok []
  | a :: l => do
    let b ← f a
    let bs ← mapE f l
    return b :: bs

/-- `List.foldlM` specialised to `Except PyErr`, written by structural
recursion.  Models a Python accumulation loop that propagates the first
exception. -/
def foldME {σ α : Type} (f : σ → α → Except PyErr σ) : σ → List α → Except PyErr σ
  | s, [] => .ok s
  | s, a :: l => do
    let s' ← f s a
    foldME f s' l

/-- The numeric value of a decimal digit character, `none` otherwise. -/
def digitVal (c : Char) : Option Nat :=
  if c.isDigit then some (c.toNat - 48) else none

/-- Accumulate decimal digits left to right; fails on a non-digit. -/
def parseNatAux : List Char → Nat → Option Nat
  | [], acc => some acc
  | c :: cs, acc =>
    match digitVal c with
    | some d => parseNatAux cs (acc * 10 + d)
    | none => none

/-- Parse a nonempty all-digit string of characters. -/
def parseNatDigits : List Char → Option Nat
  | [] => none
  | cs => parseNatAux cs 0

/-- `int(s)` on plain decimal integer literals with an optional sign.
Any other string raises `ValueError` in Python, modelled as `none`. -/
def pyInt (s : String) : Option Int :=
  match s.data with
  | '-' :: rest => (parseNatDigits rest).map (fun n => -(n : Int))
  | '+' :: rest => (parseNatDigits rest).map (fun n => (n : Int))
  | cs => (parseNatDigits cs).map (fun n => (n : Int))

/-- Split a character list at every `'.'`, mirroring `str.split` with a
one-character separator. -/
def splitDot : List Char → List (List Char)
  | [] => [[]]
  | c :: cs =>
    if c = '.' then [] :: splitDot cs
    else
      match splitDot cs with
      | [] => [[c]]
      | g :: gs => (c :: g) :: gs

/-- The unsigned part of `float(s)` on plain decimal literals:
digits, optionally with a decimal point (`"12"`, `"12."`, `".5"`, `"1.25"`). -/
def pyFloatCore (cs : List Char) : Option Rat :=
  match splitDot cs with
  | [ip] => (parseNatDigits ip).map (fun n => (n : Rat))
  | [ip, fp] =>
    if ip.isEmpty && fp.isEmpty then none
    else if fp.isEmpty then (parseNatDigits ip).map (fun n => (n : Rat))
    else if ip.isEmpty then
      (parseNatDigits fp).map (fun f => (f : Rat) / (10 : Rat) ^ fp.length)
    else
      match parseNatDigits ip, parseNatDigits fp with
      | some n, some f => some ((n : Rat) + (f : Rat) / (10 : Rat) ^ fp.length)
      | _, _ => none
  | _ => none

/-- `float(s)` on plain decimal literals with an optional sign; any other
string (in particular the empty string) raises `ValueError`, modelled as
`none`. -/
def pyFloat (s : String) : Option Rat :=
  match s.data with
  | '-' :: rest => (pyFloatCore rest).map Neg.neg
  | '+' :: rest => pyFloatCore rest
  | cs => pyFloatCore cs

/-- CPython sequence index normalisation: a negative index counts from the
end of the sequence. -/
def pyNorm (n : Nat) (i : Int) : Int :=
  if i < 0 then (n : Int) + i else i

/-- CPython sequence indexing `l[i]` for `i : int`: a negative index counts
from the end of the list; anything outside `-len(l) .. len(l)-1` raises
`IndexError`. -/
def pyListGet (l : List String) (i : Int) : Except PyErr String :=
  if 0 ≤ pyNorm l.length i then
    match l.get? (pyNorm l.length i).toNat with
    | some s => .ok s
    | none => .error .indexError
  else .error .indexError

/-- One `<c>` element of a sheet row: the optional `t` attribute (cell type
flag) and the optional text of the child `<v>` node. -/
structure Cell : Type where
  t : Option String
  v : Option String
  deriving DecidableEq, Repr

/-- Cell resolution from `iter_rows`:
`val = v.text if v is not None else ''`, and when the type flag is `'s'` and
`val` is non-empty (Python string truthiness), `val = SHARED[int(val)]`. -/
def resolveCell (shared : List String) (c : Cell) : Except PyErr String :=
  let val := c.v.getD ""
  if c.t = some "s" ∧ val ≠ "" then
    match pyInt val with
    | some i => pyListGet shared i
    | none => .error (.valueError val)
  else .ok val

/-- The row stream of `iter_rows`, with the XML parsing abstracted to a list
of rows of `Cell`s: each row is resolved cell by cell in order.  The lazy
generator is modelled by the fully materialised list; an exception while
resolving a cell aborts the stream. -/
def iter_rows (shared : List String) (sheet : List (List Cell)) :
    Except PyErr (List (List String)) :=
  mapE (fun cells => mapE (resolveCell shared) cells) sheet

/-- `idx = {h: i for i, h in enumerate(header)}` as a lookup function:
for a duplicated column name the later position wins, as in a Python dict
comprehension. -/
def columnIndex (header : List String) (name : String) : Option Nat :=
  (((header.enum).filter (fun p => p.2 = name)).map Prod.fst).getLast?

/-- `row[idx[name]]`: a missing column name raises `KeyError`, an
out-of-range position raises `IndexError`.  (Positions from `enumerate` are
nonnegative, so plain `get?` indexing is faithful here.) -/
def getCol (idx : String → Option Nat) (row : List String) (name : String) :
    Except PyErr String :=
  match idx name with
  | none => .error (.keyError name)
  | some i =>
    match row.get? i with
    | none => .error .indexError
    | some s => .ok s

/-- A `(year, month)` aggregation key, ordered as Python orders int pairs. -/
abbrev Period : Type := Int × Int

/-- Python tuple comparison `<` on `(year, month)`. -/
abbrev perLt (a b : Period) : Prop := a.1 < b.1 ∨ (a.1 = b.1 ∧ a.2 < b.2)

/-- Python tuple comparison `<=` on `(year, month)`. -/
abbrev perLe (a b : Period) : Prop := perLt a b ∨ a = b

/-- The per-row field extraction of `monthly_weighted_avg` (source lines
38–41), in evaluation order: `ym = (int(row[idx['bet_year']]),
int(row[idx['bet_month']]))`, `count = float(row[idx['count_of_bets']])`
(note: no empty-string default), `avg = float(val) if val else 0.0`.
Returns `(period, metric, weight)`. -/
def extractRow (idx : String → Option Nat) (row : List String) :
    Except PyErr (Period × Rat × Rat) := do
  let ys ← getCol idx row "bet_year"
  let y ← toExcept (.valueError ys) (pyInt ys)
  let ms ← getCol idx row "bet_month"
  let m ← toExcept (.valueError ms) (pyInt ms)
  let cs ← getCol idx row "count_of_bets"
  let count ← toExcept (.valueError cs) (pyFloat cs)
  let vs ← getCol idx row "avg_leg_count_inclusiveofstraightbets"
  let avg ← if vs = "" then pure 0 else toExcept (.valueError vs) (pyFloat vs)
  return ((y, m), avg, count)

/-- `stats[ym]['ws'] += m*w; stats[ym]['cnt'] += w` on a `defaultdict`
modelled as an association list in insertion order: a fresh key is appended
at the end with a zeroed accumulator. -/
def updAcc (acc : List (Period × Rat × Rat)) (p : Period) (m w : Rat) :
    List (Period × Rat × Rat) :=
  match acc with
  | [] => [(p, m * w, w)]
  | (q, ws, cnt) :: rest =>
    if q = p then (q, ws + m * w, cnt + w) :: rest
    else (q, ws, cnt) :: updAcc rest p m w

/-- Accumulate all extracted `(period, metric, weight)` triples. -/
def accumRows (triples : List (Period × Rat × Rat)) : List (Period × Rat × Rat) :=
  triples.foldl (fun acc t => updAcc acc t.1 t.2.1 t.2.2) []

/-- `{ym: d['ws'] / d['cnt'] if d['cnt'] else 0.0 for ym, d in stats.items()}`:
the zero-total guard of the monthly aggregator. -/
def finalizeMonthly (acc : List (Period × Rat × Rat)) : List (Period × Rat) :=
  acc.map (fun t => (t.1, if t.2.2 = 0 then 0 else t.2.1 / t.2.2))

/-- `monthly_weighted_avg` (source lines 32–44) on the resolved row stream of
one sheet: the first row is consumed as the header (`next(rows)`, raising
`StopIteration` on an empty stream), every following row is a data row. -/
def monthly_weighted_avg (allRows : List (List String)) :
    Except PyErr (List (Period × Rat)) :=
  match allRows with
  | [] => .error .stopIteration
  | header :: rows => do
    let triples ← mapE (extractRow (columnIndex header)) rows
    return finalizeMonthly (accumRows triples)

/-- `sorted(series)`: the periods of the mapping in ascending Python tuple
order (insertion sort is the stable sort; dict keys are distinct so any
correct sort agrees). -/
def sortPairs (series : List (Period × Rat)) : List (Period × Rat) :=
  List.insertionSort (fun a b => perLe a.1 b.1) series

/-- The windowed loop of `trailing_average` (source lines 50–56), carrying
the deque `q` and the running sum `total`:
`q.append(avg); total += avg; if len(q) > window: total -= q.popleft();
result[ym] = total / len(q)`.  `q ++ [v]` is never empty, so `headD 0` is
exactly the element `popleft` removes. -/
def trailGo (w : Nat) : List (Period × Rat) → List Rat → Rat → List (Period × Rat)
  | [], _, _ => []
  | (ym, v) :: rest, q, total =>
    let q1 := q ++ [v]
    let t1 := total + v
    if w < q1.length then
      (ym, (t1 - q1.headD 0) / (q1.tail.length : Rat)) ::
        trailGo w rest q1.tail (t1 - q1.headD 0)
    else
      (ym, t1 / (q1.length : Rat)) :: trailGo w rest q1 t1

/-- `trailing_average(series, window=12)` (source lines 46–57). -/
def trailing_average (series : List (Period × Rat)) (window : Nat := 12) :
    List (Period × Rat) :=
  trailGo window (sortPairs series) [] 0

/-- The most recent `n` entries of `l` (all of `l` when `n ≥ |l|`). -/
def lastN (n : Nat) (l : List Rat) : List Rat :=
  l.drop (l.length - n)

/-- The trailing-window average over the most recent `w` of the values `l`. -/
def windowAvg (w : Nat) (l : List Rat) : Rat :=
  (lastN w l).sum / ((lastN w l).length : Rat)

/-- Reference recursion for the smoother: the value emitted for each period
is the windowed average of all raw values seen up to and including it. -/
def trailSpec (w : Nat) (processed : List Rat) :
    List (Period × Rat) → List (Period × Rat)
  | [] => []
  | (ym, v) :: rest =>
    (ym, windowAvg w (processed ++ [v])) :: trailSpec w (processed ++ [v]) rest

/-- `totals[name] += handle` on a `defaultdict(float)` modelled as an
association list in insertion order. -/
def addTotal (totals : List (String × Rat)) (name : String) (h : Rat) :
    List (String × Rat) :=
  match totals with
  | [] => [(name, h)]
  | (n, t) :: rest =>
    if n = name then (n, t + h) :: rest
    else (n, t) :: addTotal rest name h

/-- One iteration of the `top_operators` loop (source lines 62–67):
rows equal to the supplied header are skipped; otherwise the category name
and the handle (empty string defaulting to `0.0`) are read and accumulated. -/
def topStep (idx : String → Option Nat) (header : List String)
    (totals : List (String × Rat)) (row : List String) :
    Except PyErr (List (String × Rat)) := do
  if row = header then return totals
  else
    let name ← getCol idx row "name"
    let hs ← getCol idx row "total_bet_handle"
    let handle ← if hs = "" then pure 0 else toExcept (.valueError hs) (pyFloat hs)
    return addTotal totals name handle

/-- The per-category totals of `top_operators`, keyed in order of first
encounter in the row stream. -/
def computeTotals (header : List String) (rows : List (List String)) :
    Except PyErr (List (String × Rat)) :=
  foldME (topStep (columnIndex header) header) [] rows

/-- `sorted(totals.items(), key=lambda x: x[1], reverse=True)`: the stable
descending sort on the accumulated totals (insertion sort with this
insertion condition is exactly the stable descending sort). -/
def sortTotals (totals : List (String × Rat)) : List (String × Rat) :=
  List.insertionSort (fun p q => q.2 ≤ p.2) totals

/-- `top_operators(zf, header)` (source lines 59–69) on the resolved row
stream of the `'All'` sheet: accumulate totals, sort descending, keep the
first 10 names. -/
def top_operators (header : List String) (rows : List (List String)) :
    Except PyErr (List String) := do
  let totals ← computeTotals header rows
  return ((sortTotals totals).take 10).map Prod.fst

/-- The value recorded for a category in the accumulated totals (`0` when
absent, as for a `defaultdict(float)`). -/
def totalsVal (totals : List (String × Rat)) (a : String) : Rat :=
  ((totals.find? (fun p => p.1 = a)).map Prod.snd).getD 0

/-- First occurrences of a list of names, in encounter order. -/
def dedupFirst : List String → List String
  | [] => []
  | x :: xs => x :: (dedupFirst xs).erase x

/-- The category name of each non-header row, in stream order (the names
whose first encounters order the accumulated totals). -/
def rowNames (header : List String) (rows : List (List String)) :
    Except PyErr (List String) :=
  mapE (fun row => getCol (columnIndex header) row "name")
    (rows.filter (fun r => r ≠ header))

/-- `stats[name][ym]` update of `operator_trailing`: the outer
`defaultdict` keyed by category name, each holding a per-period accumulator. -/
def updOp (stats : List (String × List (Period × Rat × Rat))) (name : String)
    (p : Period) (m w : Rat) : List (String × List (Period × Rat × Rat)) :=
  match stats with
  | [] => [(name, updAcc [] p m w)]
  | (n, acc) :: rest =>
    if n = name then (n, updAcc acc p m w) :: rest
    else (n, acc) :: updOp rest name p m w

/-- One iteration of the `operator_trailing` accumulation loop (source lines
76–85): the name is read first, rows of unselected categories are skipped
before any other field is touched, and the remaining fields are extracted
exactly as in `monthly_weighted_avg`. -/
def opStep (idx : String → Option Nat) (operators : List String)
    (stats : List (String × List (Period × Rat × Rat))) (row : List String) :
    Except PyErr (List (String × List (Period × Rat × Rat))) := do
  let name ← getCol idx row "name"
  if name ∈ operators then
    let t ← extractRow idx row
    return updOp stats name t.1 t.2.1 t.2.2
  else
    return stats

/-- The accumulated per-category, per-period state of `operator_trailing`. -/
def accumOps (idx : String → Option Nat) (operators : List String)
    (rows : List (List String)) :
    Except PyErr (List (String × List (Period × Rat × Rat))) :=
  foldME (opStep idx operators) [] rows

/-- The per-category accumulator for `op` (empty when `op` never matched a
row, as `stats[op]` on a `defaultdict`). -/
def lookupOp (stats : List (String × List (Period × Rat × Rat))) (op : String) :
    List (Period × Rat × Rat) :=
  ((stats.find? (fun s => s.1 = op)).map Prod.snd).getD []

/-- `{ym: d['ws'] / d['cnt'] for ym, d in stats[op].items()}` (source line
88): note there is no zero-total guard here, unlike `finalizeMonthly`; a
zero count raises `ZeroDivisionError`. -/
def finalizeOp (acc : List (Period × Rat × Rat)) :
    Except PyErr (List (Period × Rat)) :=
  mapE (fun t =>
    if t.2.2 = 0 then .error .zeroDivisionError
    else .ok (t.1, t.2.1 / t.2.2)) acc

/-- `operator_trailing(zf, header, operators)` (source lines 71–90) on the
resolved row stream of the `'All'` sheet: the first streamed row is skipped
(`next(rows)`), each remaining row is routed to its category's accumulator
when selected, and each selected category is finalized (without a zero
guard) and smoothed independently with the default window. -/
def operator_trailing (header : List String) (allRows : List (List String))
    (operators : List String) :
    Except PyErr (List (String × List (Period × Rat))) :=
  match allRows with
  | [] => .error .stopIteration
  | _ :: rows => do
    let stats ← accumOps (columnIndex header) operators rows
    mapE (fun op => do
      let series ← finalizeOp (lookupOp stats op)
      return (op, trailing_average series 12)) operators

instance : DecidableEq (List (String × List (Period × Rat × Rat))) :=
  fun a b => List.hasDecEq a b

/-- Weighted metric sum of the extracted triples with period `p`. -/
def wsum (triples : List (Period × Rat × Rat)) (p : Period) : Rat :=
  ((triples.filter (fun t => t.1 = p)).map (fun t => t.2.1 * t.2.2)).sum

/-- Weight total of the extracted triples with period `p`. -/
def wtot (triples : List (Period × Rat × Rat)) (p : Period) : Rat :=
  ((triples.filter (fun t => t.1 = p)).map (fun t => t.2.2)).sum

/-- The `(weighted_sum, weight_total)` recorded for period `p` in an
accumulator list (`(0, 0)` when the period is absent, as for the
`defaultdict`). -/
def accEntry (acc : List (Period × Rat × Rat)) (p : Period) : Rat × Rat :=
  ((acc.find? (fun t => t.1 = p)).map Prod.snd).getD (0, 0)

instance : IsTotal (Period × Rat) (fun a b => perLe a.1 b.1) :=
  ⟨by
    rintro ⟨⟨ay, am⟩, av⟩ ⟨⟨cy, cm⟩, cv⟩
    simp only [perLe, perLt, Prod.mk.injEq]
    omega⟩

instance : IsTrans (Period × Rat) (fun a b => perLe a.1 b.1) :=
  ⟨by
    rintro ⟨⟨ay, am⟩, av⟩ ⟨⟨cy, cm⟩, cv⟩ ⟨⟨dy, dm⟩, dv⟩
    simp only [perLe, perLt, Prod.mk.injEq]
    omega⟩

instance : IsAntisymm (Period × Rat) (fun a b => perLt a.1 b.1) :=
  ⟨by
    rintro ⟨⟨ay, am⟩, av⟩ ⟨⟨cy, cm⟩, cv⟩ h1 h2
    exfalso
    simp only [perLt] at h1 h2
    omega⟩

instance : IsTotal (String × Rat) (fun p q => q.2 ≤ p.2) :=
  ⟨fun a b => le_total b.2 a.2⟩

instance : IsTrans (String × Rat) (fun p q => q.2 ≤ p.2) :=
  ⟨fun _ _ _ h1 h2 => le_trans h2 h1⟩

@[simp]
theorem ok_bind {α β : Type} (a : α) (f : α → Except PyErr β) :
    (Except.ok a >>= f) = f a := rfl

@[simp]
theorem error_bind {α β : Type} (e : PyErr) (f : α → Except PyErr β) :
    ((Except.error e : Except PyErr α) >>= f) = .error e := rfl

/-- A successful `mapE` run has one output per input. -/
theorem mapE_ok_length {α β : Type} (f : α → Except PyErr β) :
    ∀ (l : List α) (out : List β), mapE f l = .ok out → out.length = l.length := by
  intro l
  induction l with
  | nil => intro out h; cases h; rfl
  | cons a t ih =>
    intro out h
    simp only [mapE] at h
    cases hf : f a with
    | error e => rw [hf] at h; simp at h
    | ok b =>
      rw [hf] at h
      simp only [ok_bind] at h
      cases ht : mapE f t with
      | error e => rw [ht] at h; simp at h
      | ok bs =>
        rw [ht] at h
        simp only [ok_bind] at h
        cases h
        simp [ih bs ht]

/-- A successful `mapE` run applies `f` elementwise. -/
theorem mapE_ok_get {α β : Type} (f : α → Except PyErr β) :
    ∀ (l : List α) (out : List β), mapE f l = .ok out →
      ∀ (i : Nat) (hi : i < l.length) (ho : i < out.length),
        f (l.get ⟨i, hi⟩) = .ok (out.get ⟨i, ho⟩) := by
  intro l
  induction l with
  | nil => intro out h i hi; exact absurd hi (by simp)
  | cons a t ih =>
    intro out h i hi ho
    simp only [mapE] at h
    cases hf : f a with
    | error e => rw [hf] at h; simp at h
    | ok b =>
      rw [hf] at h
      simp only [ok_bind] at h
      cases ht : mapE f t with
      | error e => rw [ht] at h; simp at h
      | ok bs =>
        rw [ht] at h
        simp only [ok_bind] at h
        cases h
        cases i with
        | zero => simpa using hf
        | succ j =>
          exact ih bs ht j (Nat.lt_of_succ_lt_succ hi) (Nat.lt_of_succ_lt_succ ho)

/-- `mapE` of an everywhere-successful function is a `map`. -/
theorem mapE_ok_of_forall {α β : Type} (f : α → Except PyErr β) (g : α → β) :
    ∀ (l : List α), (∀ a ∈ l, f a = .ok (g a)) → mapE f l = .ok (l.map g) := by
  intro l
  induction l with
  | nil => intro _; rfl
  | cons a t ih =>
    intro h
    simp only [mapE, h a (by simp), ok_bind, ih (fun x hx => h x (by simp [hx])),
      List.map_cons]
    rfl

/-- In an association list with distinct keys, `find?` at a present key
returns its unique pair. -/
theorem findKeyNodup {α β : Type} [DecidableEq α] :
    ∀ (l : List (α × β)), (l.map Prod.fst).Nodup →
      ∀ (a : α) (b : β), (a, b) ∈ l → l.find? (fun t => t.1 = a) = some (a, b) := by
  intro l
  induction l with
  | nil => intro _ a b h; simp at h
  | cons x t ih =>
    intro hnd a b hm
    simp only [List.map_cons, List.nodup_cons] at hnd
    rcases List.mem_cons.mp hm with he | ht
    · subst he
      simp [List.find?]
    · have hne : x.1 ≠ a := by
        intro hx
        exact hnd.1 (hx ▸ List.mem_map.mpr ⟨(a, b), ht, rfl⟩)
      rw [List.find?, decide_eq_false hne]
      exact ih hnd.2 a b ht

/-- In an association list with distinct keys, pairs are determined by their
key. -/
theorem keyInj {α β : Type} [DecidableEq α] (l : List (α × β))
    (h : (l.map Prod.fst).Nodup) {p q : α × β} (hp : p ∈ l) (hq : q ∈ l)
    (he : p.1 = q.1) : p = q := by
  have h1 := findKeyNodup l h p.1 p.2 (by simpa using hp)
  have h2 := findKeyNodup l h q.1 q.2 (by simpa using hq)
  rw [he] at h1
  have h3 : (q.1, p.2) = (q.1, q.2) := Option.some.inj (h1.symm.trans h2)
  have hp2 : p.2 = q.2 := by
    rw [Prod.ext_iff] at h3
    exact h3.2
  exact Prod.ext_iff.mpr ⟨he, hp2⟩

/-- The accumulation loop of `top_operators` leaves the totals untouched on
any row equal to the header, so deleting those rows beforehand changes
nothing. -/
theorem foldME_topStep_filter (idx : String → Option Nat) (header : List String) :
    ∀ (rows : List (List String)) (acc : List (String × Rat)),
      foldME (topStep idx header) acc rows =
        foldME (topStep idx header) acc (rows.filter (fun r => r ≠ header)) := by
  intro rows
  induction rows with
  | nil => intro acc; rfl
  | cons r t ih =>
    intro acc
    by_cases hr : r = header
    · subst hr
      have hstep : topStep idx r acc r = .ok acc := by
        simp only [topStep, if_pos rfl]
        rfl
      rw [List.filter_cons_of_neg (by simp)]
      simp only [foldME, hstep, ok_bind]
      exact ih acc
    · rw [List.filter_cons_of_pos (by simpa using hr)]
      simp only [foldME]
      cases hs : topStep idx header acc r with
      | error e => rfl
      | ok s => exact ih s

/-- C10: `top_operators` excludes from the category totals every row whose
cell list is element-wise equal to the supplied header row — the totals (and
hence the ranking) over a row stream equal those over the stream with all
header-equal rows removed, so a data row that coincidentally repeats the
header's values is silently dropped from ranking. -/
theorem top_operators_header_dup_rows (header : List String)
    (rows : List (List String)) :
    computeTotals header rows =
        computeTotals header (rows.filter (fun r => r ≠ header)) ∧
    top_operators header rows =
        top_operators header (rows.filter (fun r => r ≠ header)) := by
  have h := foldME_topStep_filter (columnIndex header) header rows []
  refine ⟨h, ?_⟩
  simp only [top_operators, computeTotals]
  rw [h]

/-- C4 counterexample: a shared-string cell whose raw text is the index `-1`
is outside the valid range `0..N-1`, yet `iter_rows` cell resolution silently
returns the last table entry (here `"b"`) instead of raising an error. -/
theorem resolveCell_negative_index_cex :
    resolveCell ["a", "b"] ⟨some "s", some "-1"⟩ = .ok "b" := rfl

/-- C6 counterexample: a data row whose weight column (`count_of_bets`) is
the empty string makes the monthly aggregation raise `ValueError` (from
`float('')`); the weight is not defaulted to `0.0`. -/
theorem monthly_weighted_avg_empty_weight_cex :
    monthly_weighted_avg
      [["bet_year", "bet_month", "count_of_bets",
        "avg_leg_count_inclusiveofstraightbets"],
       ["2024", "1", "", "5"]] = .error (.valueError "") := rfl

/-- C7 counterexample: a header lacking every required column, followed by no
data rows, makes the monthly aggregation return an empty mapping with no
error — the missing-column error is not raised before (independently of) the
first data row. -/
theorem monthly_weighted_avg_missing_column_cex :
    monthly_weighted_avg [["foo"]] = .ok [] := rfl

/-- C8 counterexample: a sheet whose second row is shorter than its first
(header) row streams through `iter_rows` unchanged — the ragged row is
yielded with its own length and no error is raised. -/
theorem iter_rows_ragged_cex :
    iter_rows [] [[⟨none, some "a"⟩, ⟨none, some "b"⟩], [⟨none, some "c"⟩]] =
      .ok [["a", "b"], ["c"]] := rfl

/-- C3 counterexample: a selected operator with a single period whose
accumulated weight total (from `count_of_bets`) is zero makes
`operator_trailing` raise `ZeroDivisionError` instead of finalizing the
period to `0.0` as the monthly aggregator does. -/
theorem operator_trailing_zero_weight_cex :
    operator_trailing
      ["name", "bet_year", "bet_month", "count_of_bets",
       "avg_leg_count_inclusiveofstraightbets"]
      [["hdr"], ["A", "2024", "1", "0", ""]] ["A"] =
      .error .zeroDivisionError := rfl

theorem accEntry_nil (p : Period) : accEntry [] p = (0, 0) := rfl

theorem accEntry_cons (q : Period) (e : Rat × Rat)
    (rest : List (Period × Rat × Rat)) (p : Period) :
    accEntry ((q, e) :: rest) p = if p = q then e else accEntry rest p := by
  by_cases h : p = q
  · subst h
    simp [accEntry, List.find?]
  · have hq : ¬ (q = p) := fun hh => h hh.symm
    rw [if_neg h]
    simp only [accEntry, List.find?]
    rw [decide_eq_false hq]

/-- Effect of one accumulation step on the recorded `(ws, cnt)` pairs. -/
theorem accEntry_updAcc (acc : List (Period × Rat × Rat)) (p : Period)
    (m w : Rat) (p' : Period) :
    accEntry (updAcc acc p m w) p' =
      if p' = p then ((accEntry acc p').1 + m * w, (accEntry acc p').2 + w)
      else accEntry acc p' := by
  induction acc with
  | nil =>
    by_cases h : p' = p
    · subst h
      simp [updAcc, accEntry_cons, accEntry_nil]
    · simp [updAcc, accEntry_cons, accEntry_nil, h]
  | cons x rest ih =>
    rcases x with ⟨q, ws, cnt⟩
    simp only [updAcc]
    by_cases hq : q = p
    · rw [if_pos hq]
      subst hq
      by_cases h' : p' = q
      · subst h'
        simp [accEntry_cons]
      · simp [accEntry_cons, h']
    · rw [if_neg hq]
      by_cases h' : p' = q
      · subst h'
        simp [accEntry_cons, hq]
      · simp only [accEntry_cons, if_neg h', ih]

theorem wsum_cons (t : Period × Rat × Rat) (rest : List (Period × Rat × Rat))
    (p : Period) :
    wsum (t :: rest) p = (if t.1 = p then t.2.1 * t.2.2 else 0) + wsum rest p := by
  by_cases h : t.1 = p
  · simp [wsum, List.filter_cons, h]
  · simp [wsum, List.filter_cons, h]

theorem wtot_cons (t : Period × Rat × Rat) (rest : List (Period × Rat × Rat))
    (p : Period) :
    wtot (t :: rest) p = (if t.1 = p then t.2.2 else 0) + wtot rest p := by
  by_cases h : t.1 = p
  · simp [wtot, List.filter_cons, h]
  · simp [wtot, List.filter_cons, h]

/-- Accumulating triples adds their per-period sums onto the accumulator. -/
theorem accEntry_foldl (triples : List (Period × Rat × Rat)) :
    ∀ (acc : List (Period × Rat × Rat)) (p : Period),
      accEntry (triples.foldl (fun a t => updAcc a t.1 t.2.1 t.2.2) acc) p =
        ((accEntry acc p).1 + wsum triples p,
         (accEntry acc p).2 + wtot triples p) := by
  induction triples with
  | nil =>
    intro acc p
    simp [wsum, wtot]
  | cons t rest ih =>
    intro acc p
    rw [List.foldl_cons, ih (updAcc acc t.1 t.2.1 t.2.2) p, accEntry_updAcc,
      wsum_cons, wtot_cons]
    by_cases ht : p = t.1
    · rw [if_pos ht, if_pos ht.symm, if_pos ht.symm]
      refine Prod.ext_iff.mpr ⟨?_, ?_⟩ <;> dsimp <;> ring
    · rw [if_neg ht, if_neg (fun hh => ht hh.symm), if_neg (fun hh => ht hh.symm)]
      refine Prod.ext_iff.mpr ⟨?_, ?_⟩ <;> dsimp <;> ring

/-- One accumulation step appends a fresh period key at the end, or keeps
the key list unchanged. -/
theorem updAcc_keys (acc : List (Period × Rat × Rat)) (p : Period) (m w : Rat) :
    (updAcc acc p m w).map Prod.fst =
      if p ∈ acc.map Prod.fst then acc.map Prod.fst
      else acc.map Prod.fst ++ [p] := by
  induction acc with
  | nil => simp [updAcc]
  | cons x rest ih =>
    rcases x with ⟨q, ws, cnt⟩
    simp only [updAcc]
    by_cases hq : q = p
    · subst hq
      rw [if_pos rfl]
      simp
    · rw [if_neg hq]
      simp only [List.map_cons]
      rw [ih]
      by_cases hp : p ∈ rest.map Prod.fst
      · rw [if_pos hp, if_pos (by simp [hp])]
      · rw [if_neg hp,
          if_neg (by simp only [List.mem_cons]; rintro (h | h); exact hq h.symm; exact hp h)]
        simp

theorem updAcc_nodup (acc : List (Period × Rat × Rat)) (p : Period) (m w : Rat)
    (h : (acc.map Prod.fst).Nodup) :
    ((updAcc acc p m w).map Prod.fst).Nodup := by
  rw [updAcc_keys]
  by_cases hp : p ∈ acc.map Prod.fst
  · rw [if_pos hp]; exact h
  · rw [if_neg hp]
    simp [List.nodup_append, h, hp]

theorem updAcc_mem_keys (acc : List (Period × Rat × Rat)) (p : Period)
    (m w : Rat) (p' : Period) :
    p' ∈ (updAcc acc p m w).map Prod.fst ↔
      p' = p ∨ p' ∈ acc.map Prod.fst := by
  rw [updAcc_keys]
  by_cases hp : p ∈ acc.map Prod.fst
  · rw [if_pos hp]
    constructor
    · exact Or.inr
    · rintro (rfl | h)
      · exact hp
      · exact h
  · rw [if_neg hp]
    simp [or_comm]

theorem foldl_updAcc_nodup (triples : List (Period × Rat × Rat)) :
    ∀ (acc : List (Period × Rat × Rat)), (acc.map Prod.fst).Nodup →
      (((triples.foldl (fun a t => updAcc a t.1 t.2.1 t.2.2) acc)).map
        Prod.fst).Nodup := by
  induction triples with
  | nil => intro acc h; exact h
  | cons t rest ih =>
    intro acc h
    rw [List.foldl_cons]
    exact ih _ (updAcc_nodup acc t.1 t.2.1 t.2.2 h)

theorem foldl_updAcc_mem (triples : List (Period × Rat × Rat)) :
    ∀ (acc : List (Period × Rat × Rat)) (p : Period),
      p ∈ ((triples.foldl (fun a t => updAcc a t.1 t.2.1 t.2.2) acc)).map
          Prod.fst ↔
        p ∈ acc.map Prod.fst ∨ p ∈ triples.map Prod.fst := by
  induction triples with
  | nil => intro acc p; simp
  | cons t rest ih =>
    intro acc p
    rw [List.foldl_cons, ih]
    rw [updAcc_mem_keys]
    simp only [List.map_cons, List.mem_cons]
    tauto

theorem accumRows_nodup (triples : List (Period × Rat × Rat)) :
    ((accumRows triples).map Prod.fst).Nodup :=
  foldl_updAcc_nodup triples [] (by simp)

theorem accumRows_mem (triples : List (Period × Rat × Rat)) (p : Period) :
    p ∈ (accumRows triples).map Prod.fst ↔ p ∈ triples.map Prod.fst := by
  rw [accumRows, foldl_updAcc_mem]
  simp

/-- The accumulator records exactly the reference per-period sums. -/
theorem accEntry_accumRows (triples : List (Period × Rat × Rat)) (p : Period) :
    accEntry (accumRows triples) p = (wsum triples p, wtot triples p) := by
  have h := accEntry_foldl triples [] p
  rw [accumRows]
  rw [h, accEntry_nil]
  simp

/-- C1: for every sequence of data rows (whose fields extract successfully,
with an empty metric string contributing metric `0` by the extraction rule),
`monthly_weighted_avg` succeeds, its mapping has exactly one entry per period
appearing in the rows, and the value for each period `p` is
`weighted_sum(p)/weight_total(p)` when `weight_total(p) ≠ 0` and exactly `0`
when `weight_total(p) = 0`. -/
theorem monthly_weighted_avg_spec (header : List String)
    (rows : List (List String)) (triples : List (Period × Rat × Rat))
    (h : mapE (extractRow (columnIndex header)) rows = .ok triples) :
    ∃ m, monthly_weighted_avg (header :: rows) = .ok m ∧
      (m.map Prod.fst).Nodup ∧
      (∀ p, p ∈ m.map Prod.fst ↔ p ∈ triples.map Prod.fst) ∧
      ∀ p v, (p, v) ∈ m →
        v = if wtot triples p = 0 then 0
            else wsum triples p / wtot triples p := by
  have hkeys : (finalizeMonthly (accumRows triples)).map Prod.fst =
      (accumRows triples).map Prod.fst := by
    rw [finalizeMonthly, List.map_map]
    rfl
  refine ⟨finalizeMonthly (accumRows triples), ?_, ?_, ?_, ?_⟩
  · simp only [monthly_weighted_avg, h, ok_bind]
    rfl
  · rw [hkeys]
    exact accumRows_nodup triples
  · intro p
    rw [hkeys]
    exact accumRows_mem triples p
  · intro p v hm
    simp only [finalizeMonthly, List.mem_map] at hm
    obtain ⟨t, ht, he⟩ := hm
    have h1 : t.1 = p := congrArg Prod.fst he
    have h2 : (if t.2.2 = 0 then (0 : Rat) else t.2.1 / t.2.2) = v :=
      congrArg Prod.snd he
    have hf : (accumRows triples).find? (fun x => x.1 = p) = some (p, t.2) := by
      apply findKeyNodup _ (accumRows_nodup triples)
      have heq : t = (p, t.2) := by rw [← h1]
      exact heq ▸ ht
    have hacc : accEntry (accumRows triples) p = t.2 := by
      simp [accEntry, hf]
    rw [accEntry_accumRows] at hacc
    have hws : wsum triples p = t.2.1 := congrArg Prod.fst hacc
    have hwt : wtot triples p = t.2.2 := congrArg Prod.snd hacc
    rw [← h2, hws, hwt]

/-- C1 witness: the spec's end-to-end scenario, rows
`(2024,1,count=2,avg=10)` and `(2024,1,count=1,avg=4)`, instantiates the
aggregation theorem with its extraction hypothesis discharged. -/
theorem monthly_weighted_avg_spec_witness :
    mapE (extractRow (columnIndex
        ["bet_year", "bet_month", "count_of_bets",
         "avg_leg_count_inclusiveofstraightbets"]))
      [["2024", "1", "2", "10"], ["2024", "1", "1", "4"]] =
      .ok [((2024, 1), 10, 2), ((2024, 1), 4, 1)] ∧
    (∃ m, monthly_weighted_avg
        (["bet_year", "bet_month", "count_of_bets",
          "avg_leg_count_inclusiveofstraightbets"] ::
         [["2024", "1", "2", "10"], ["2024", "1", "1", "4"]]) = .ok m ∧
      (m.map Prod.fst).Nodup ∧
      (∀ p, p ∈ m.map Prod.fst ↔
        p ∈ ([((2024, 1), 10, 2), ((2024, 1), 4, 1)] :
              List (Period × Rat × Rat)).map Prod.fst) ∧
      ∀ p v, (p, v) ∈ m →
        v = if wtot [((2024, 1), 10, 2), ((2024, 1), 4, 1)] p = 0 then 0
            else wsum [((2024, 1), 10, 2), ((2024, 1), 4, 1)] p /
              wtot [((2024, 1), 10, 2), ((2024, 1), 4, 1)] p) :=
  ⟨rfl, monthly_weighted_avg_spec _ _ _ rfl⟩

/-- A bind raises some error as soon as every continuation from a success
raises one. -/
theorem bind_error_ex {α β : Type} (x : Except PyErr α) (k : α → Except PyErr β)
    (hk : ∀ a, x = .ok a → ∃ e, k a = .error e) :
    ∃ e, (x >>= k) = .error e := by
  cases x with
  | error e => exact ⟨e, rfl⟩
  | ok a =>
    obtain ⟨e, he⟩ := hk a rfl
    exact ⟨e, by simpa using he⟩

/-- C6 (amended): in the monthly aggregation's per-row extraction, an empty
metric string (`avg_leg_count_inclusiveofstraightbets` column) contributes
metric `0` without error, but the weight column (`count_of_bets`) has no such
default: an empty or otherwise unparseable weight string raises `ValueError`
(`float('')` fails). -/
theorem extractRow_policy (idx : String → Option Nat) (row : List String)
    (ys ms cs vs : String) (y m : Int)
    (h1 : getCol idx row "bet_year" = .ok ys) (hy : pyInt ys = some y)
    (h2 : getCol idx row "bet_month" = .ok ms) (hm : pyInt ms = some m)
    (h3 : getCol idx row "count_of_bets" = .ok cs)
    (h4 : getCol idx row "avg_leg_count_inclusiveofstraightbets" = .ok vs) :
    (pyFloat "" = none) ∧
    (pyFloat cs = none → extractRow idx row = .error (.valueError cs)) ∧
    (∀ c, pyFloat cs = some c → vs = "" →
      extractRow idx row = .ok ((y, m), 0, c)) := by
  refine ⟨rfl, ?_, ?_⟩
  · intro hc
    simp [extractRow, h1, h2, h3, h4, hy, hm, hc, toExcept]
  · intro c hc hv
    subst hv
    simp [extractRow, h1, h2, h3, h4, hy, hm, hc, toExcept]

/-- C6 witness: a concrete row whose weight cell is empty raises
`ValueError` while the same row with an empty metric cell and weight `2`
finalizes the metric to `0`. -/
theorem extractRow_policy_witness :
    (pyFloat "" = none) ∧
    (pyFloat "" = none →
      extractRow (columnIndex
          ["bet_year", "bet_month", "count_of_bets",
           "avg_leg_count_inclusiveofstraightbets"])
        ["2024", "1", "", "5"] = .error (.valueError "")) ∧
    (∀ c, pyFloat "" = some c → "5" = "" →
      extractRow (columnIndex
          ["bet_year", "bet_month", "count_of_bets",
           "avg_leg_count_inclusiveofstraightbets"])
        ["2024", "1", "", "5"] = .ok ((2024, 1), 0, c)) :=
  extractRow_policy _ _ "2024" "1" "" "5" 2024 1 rfl rfl rfl rfl rfl rfl

/-- C7 (amended): when the header lacks a required column, the monthly
aggregation raises an error only upon processing the first data row (a
`KeyError` from `idx[...]`, or an earlier per-row failure); with zero data
rows it returns an empty mapping and raises nothing, so the error is *not*
raised before, or independently of, the first data row. -/
theorem monthly_missing_column (header : List String) (r : List String)
    (rows : List (List String))
    (hm : columnIndex header "bet_year" = none ∨
          columnIndex header "bet_month" = none ∨
          columnIndex header "count_of_bets" = none ∨
          columnIndex header "avg_leg_count_inclusiveofstraightbets" = none) :
    (∃ e, monthly_weighted_avg (header :: r :: rows) = .error e) ∧
    monthly_weighted_avg [header] = .ok [] := by
  have hex : ∃ e, extractRow (columnIndex header) r = .error e := by
    rcases hm with h | h | h | h
    · exact ⟨.keyError "bet_year", by simp [extractRow, getCol, h]⟩
    · simp only [extractRow]
      apply bind_error_ex; intro ys _
      apply bind_error_ex; intro y _
      exact ⟨.keyError "bet_month", by simp [getCol, h]⟩
    · simp only [extractRow]
      apply bind_error_ex; intro ys _
      apply bind_error_ex; intro y _
      apply bind_error_ex; intro ms _
      apply bind_error_ex; intro m _
      exact ⟨.keyError "count_of_bets", by simp [getCol, h]⟩
    · simp only [extractRow]
      apply bind_error_ex; intro ys _
      apply bind_error_ex; intro y _
      apply bind_error_ex; intro ms _
      apply bind_error_ex; intro m _
      apply bind_error_ex; intro cs _
      apply bind_error_ex; intro c _
      exact ⟨.keyError "avg_leg_count_inclusiveofstraightbets", by simp [getCol, h]⟩
  obtain ⟨e, he⟩ := hex
  refine ⟨⟨e, ?_⟩, rfl⟩
  simp [monthly_weighted_avg, mapE, he]

/-- C7 witness: a header missing `bet_year` followed by one data row raises
an error at that row, while the same header with no data rows returns the
empty mapping. -/
theorem monthly_missing_column_witness :
    (columnIndex ["bet_month", "count_of_bets",
        "avg_leg_count_inclusiveofstraightbets"] "bet_year" = none ∨
      columnIndex ["bet_month", "count_of_bets",
        "avg_leg_count_inclusiveofstraightbets"] "bet_month" = none ∨
      columnIndex ["bet_month", "count_of_bets",
        "avg_leg_count_inclusiveofstraightbets"] "count_of_bets" = none ∨
      columnIndex ["bet_month", "count_of_bets",
        "avg_leg_count_inclusiveofstraightbets"]
        "avg_leg_count_inclusiveofstraightbets" = none) ∧
    ((∃ e, monthly_weighted_avg
        (["bet_month", "count_of_bets",
          "avg_leg_count_inclusiveofstraightbets"] ::
         ["1", "2", "3"] :: []) = .error e) ∧
      monthly_weighted_avg
        [["bet_month", "count_of_bets",
          "avg_leg_count_inclusiveofstraightbets"]] = .ok []) :=
  ⟨Or.inl rfl, monthly_missing_column _ _ _ (Or.inl rfl)⟩

/-- Exact behaviour of CPython list indexing with an `int` index. -/
theorem pyListGet_spec (l : List String) (i : Int) :
    (0 ≤ i ∧ i < (l.length : Int) → pyListGet l i = .ok (l.getD i.toNat "")) ∧
    (-(l.length : Int) ≤ i ∧ i < 0 →
      pyListGet l i = .ok (l.getD ((l.length : Int) + i).toNat "")) ∧
    ((l.length : Int) ≤ i ∨ i < -(l.length : Int) →
      pyListGet l i = .error .indexError) := by
  refine ⟨?_, ?_, ?_⟩
  · rintro ⟨h0, hl⟩
    have hj : pyNorm l.length i = i := by
      rw [pyNorm, if_neg (not_lt.mpr h0)]
    have hlt : i.toNat < l.length := by omega
    rw [pyListGet, hj, if_pos h0, List.get?_eq_getElem?,
      List.getElem?_eq_getElem hlt, List.getD_eq_getElem l "" hlt]
  · rintro ⟨h0, hl⟩
    have hj : pyNorm l.length i = (l.length : Int) + i := by
      rw [pyNorm, if_pos hl]
    have h0' : 0 ≤ (l.length : Int) + i := by omega
    have hlt : ((l.length : Int) + i).toNat < l.length := by omega
    rw [pyListGet, hj, if_pos h0', List.get?_eq_getElem?,
      List.getElem?_eq_getElem hlt, List.getD_eq_getElem l "" hlt]
  · intro h
    rcases h with h | h
    · have h0 : 0 ≤ i := le_trans (Int.ofNat_nonneg l.length) h
      have hj : pyNorm l.length i = i := by
        rw [pyNorm, if_neg (not_lt.mpr h0)]
      have hge : l.length ≤ i.toNat := by omega
      rw [pyListGet, hj, if_pos h0, List.get?_eq_getElem?,
        List.getElem?_eq_none hge]
    · have hneg : i < 0 := by omega
      have hj : pyNorm l.length i = (l.length : Int) + i := by
        rw [pyNorm, if_pos hneg]
      rw [pyListGet, hj, if_neg (by omega)]

/-- C4 (amended): in `iter_rows` cell resolution, a cell not flagged as a
shared-string reference — or flagged but with empty raw text — yields its
raw text (or the empty string) verbatim; a flagged non-empty cell parses its
text as an integer index, and the index is resolved with CPython list
indexing: `0 ≤ i < N` yields entry `i`, `-N ≤ i < 0` *silently* yields entry
`N + i` from the end of the table (no error), and only `i ≥ N` or `i < -N`
raises an error (`IndexError`, not a silent empty string). -/
theorem resolveCell_spec (shared : List String) (c : Cell) :
    (¬(c.t = some "s" ∧ c.v.getD "" ≠ "") →
      resolveCell shared c = .ok (c.v.getD "")) ∧
    (c.t = some "s" → c.v.getD "" ≠ "" → pyInt (c.v.getD "") = none →
      resolveCell shared c = .error (.valueError (c.v.getD ""))) ∧
    (∀ i : Int, c.t = some "s" → c.v.getD "" ≠ "" →
      pyInt (c.v.getD "") = some i →
      ((0 ≤ i ∧ i < (shared.length : Int) →
          resolveCell shared c = .ok (shared.getD i.toNat "")) ∧
       (-(shared.length : Int) ≤ i ∧ i < 0 →
          resolveCell shared c =
            .ok (shared.getD ((shared.length : Int) + i).toNat "")) ∧
       ((shared.length : Int) ≤ i ∨ i < -(shared.length : Int) →
          resolveCell shared c = .error .indexError))) := by
  refine ⟨?_, ?_, ?_⟩
  · intro h
    simp only [resolveCell]
    rw [if_neg h]
  · intro h1 h2 hp
    simp only [resolveCell]
    rw [if_pos ⟨h1, h2⟩, hp]
  · intro i h1 h2 hp
    have hres : resolveCell shared c = pyListGet shared i := by
      simp only [resolveCell]
      rw [if_pos ⟨h1, h2⟩, hp]
    rw [hres]
    exact pyListGet_spec shared i

/-- C4 witness: with the two-entry table `["a", "b"]`, a flagged cell with
raw text `"1"` resolves in range to `"b"`. -/
theorem resolveCell_spec_witness :
    resolveCell ["a", "b"] ⟨some "s", some "1"⟩ = .ok "b" := by
  have h := ((resolveCell_spec ["a", "b"] ⟨some "s", some "1"⟩).2.2 1 rfl
    (by decide) rfl).1 ⟨by norm_num, by norm_num⟩
  simpa using h

/-- C8 (amended): `iter_rows` performs no row-length validation at all: on a
successful stream it yields exactly one output row per sheet row, and each
yielded row has exactly one string per `<c>` cell of its source row — a row
whose length differs from the header's is passed through silently, neither
truncated, padded, nor reported. -/
theorem iter_rows_no_length_check (shared : List String)
    (sheet : List (List Cell)) (out : List (List String))
    (h : iter_rows shared sheet = .ok out) :
    out.length = sheet.length ∧
    ∀ (i : Nat) (hi : i < out.length) (hs : i < sheet.length),
      (out.get ⟨i, hi⟩).length = (sheet.get ⟨i, hs⟩).length := by
  rw [iter_rows] at h
  refine ⟨mapE_ok_length _ _ _ h, ?_⟩
  intro i hi hs
  have hrow := mapE_ok_get _ _ _ h i hs hi
  exact mapE_ok_length _ _ _ hrow

/-- C8 witness: the ragged two-row sheet streams through with the original
row lengths 2 and 1. -/
theorem iter_rows_no_length_check_witness :
    (iter_rows [] [[⟨none, some "a"⟩, ⟨none, some "b"⟩], [⟨none, some "c"⟩]] =
      .ok [["a", "b"], ["c"]]) ∧
    (([["a", "b"], ["c"]] : List (List String)).length =
        ([[⟨none, some "a"⟩, ⟨none, some "b"⟩],
          [⟨none, some "c"⟩]] : List (List Cell)).length ∧
      ∀ (i : Nat) (hi : i < ([["a", "b"], ["c"]] : List (List String)).length)
        (hs : i < ([[⟨none, some "a"⟩, ⟨none, some "b"⟩],
          [⟨none, some "c"⟩]] : List (List Cell)).length),
        (([["a", "b"], ["c"]] : List (List String)).get ⟨i, hi⟩).length =
          (([[⟨none, some "a"⟩, ⟨none, some "b"⟩],
            [⟨none, some "c"⟩]] : List (List Cell)).get ⟨i, hs⟩).length) :=
  ⟨rfl, iter_rows_no_length_check []
    [[⟨none, some "a"⟩, ⟨none, some "b"⟩], [⟨none, some "c"⟩]]
    [["a", "b"], ["c"]] rfl⟩

/-- A successful per-category finalize divides each period's sums with no
zero guard. -/
theorem finalizeOp_ok (acc : List (Period × Rat × Rat))
    (h : ∀ t ∈ acc, t.2.2 ≠ 0) :
    finalizeOp acc = .ok (acc.map (fun t => (t.1, t.2.1 / t.2.2))) := by
  induction acc with
  | nil => rfl
  | cons t rest ih =>
    simp only [finalizeOp, mapE]
    rw [if_neg (h t (by simp))]
    simp only [ok_bind]
    have hrest := ih (fun x hx => h x (by simp [hx]))
    rw [finalizeOp] at hrest
    rw [hrest]
    rfl

/-- Any period with a zero accumulated weight makes the per-category
finalize raise `ZeroDivisionError`. -/
theorem finalizeOp_error (acc : List (Period × Rat × Rat))
    (h : ∃ t ∈ acc, t.2.2 = 0) :
    finalizeOp acc = .error .zeroDivisionError := by
  induction acc with
  | nil =>
    obtain ⟨x, hx, _⟩ := h
    exact absurd hx (by simp)
  | cons t rest ih =>
    by_cases ht : t.2.2 = 0
    · simp only [finalizeOp, mapE]
      rw [if_pos ht]
      rfl
    · obtain ⟨x, hx, hz⟩ := h
      have hxr : x ∈ rest := by
        rcases List.mem_cons.mp hx with rfl | hr
        · exact absurd hz ht
        · exact hr
      simp only [finalizeOp, mapE]
      rw [if_neg ht]
      simp only [ok_bind]
      have hrest := ih ⟨x, hxr, hz⟩
      rw [finalizeOp] at hrest
      rw [hrest]
      rfl

/-- The per-operator finalize loop when every selected operator's
accumulated weights are nonzero. -/
theorem opsFinalize_ok (stats : List (String × List (Period × Rat × Rat)))
    (ops : List String)
    (h : ∀ op ∈ ops, ∀ t ∈ lookupOp stats op, t.2.2 ≠ 0) :
    mapE (fun op => do
        let series ← finalizeOp (lookupOp stats op)
        return (op, trailing_average series 12)) ops =
      .ok (ops.map (fun op => (op, trailing_average
        ((lookupOp stats op).map (fun t => (t.1, t.2.1 / t.2.2))) 12))) := by
  apply mapE_ok_of_forall
  intro op hop
  rw [finalizeOp_ok (lookupOp stats op) (h op hop)]
  rfl

/-- The per-operator finalize loop raises `ZeroDivisionError` when some
selected operator has a period with zero accumulated weight. -/
theorem opsFinalize_error (stats : List (String × List (Period × Rat × Rat)))
    (ops : List String)
    (h : ∃ op ∈ ops, ∃ t ∈ lookupOp stats op, t.2.2 = 0) :
    mapE (fun op => do
        let series ← finalizeOp (lookupOp stats op)
        return (op, trailing_average series 12)) ops =
      .error .zeroDivisionError := by
  induction ops with
  | nil =>
    obtain ⟨op, hop, _⟩ := h
    exact absurd hop (by simp)
  | cons o rest ih =>
    by_cases hz : ∃ t ∈ lookupOp stats o, t.2.2 = 0
    · have herr := finalizeOp_error _ hz
      simp only [mapE]
      rw [herr]
      rfl
    · have hok := finalizeOp_ok (lookupOp stats o) (by push_neg at hz; exact hz)
      obtain ⟨op, hop, hwit⟩ := h
      have hop' : op ∈ rest := by
        rcases List.mem_cons.mp hop with rfl | hr
        · exact absurd hwit hz
        · exact hr
      simp only [mapE]
      rw [hok]
      simp only [ok_bind]
      rw [ih ⟨op, hop', hwit⟩]
      rfl

/-- C3 (amended): `operator_trailing` finalizes each accumulated period as
`weighted_sum/weight_total` with *no* zero-weight guard: whenever every
accumulated weight total of every selected category is nonzero the result
equals the §4.3-style quotient series, smoothed independently per category;
but a period whose weight total is exactly zero raises `ZeroDivisionError`
instead of finalizing to `0.0` as `monthly_weighted_avg` does. -/
theorem operator_trailing_finalize (header r0 : List String)
    (data : List (List String)) (ops : List String)
    (stats : List (String × List (Period × Rat × Rat)))
    (hs : accumOps (columnIndex header) ops data = .ok stats) :
    ((∀ op ∈ ops, ∀ t ∈ lookupOp stats op, t.2.2 ≠ 0) →
      operator_trailing header (r0 :: data) ops =
        .ok (ops.map (fun op => (op, trailing_average
          ((lookupOp stats op).map (fun t => (t.1, t.2.1 / t.2.2))) 12)))) ∧
    ((∃ op ∈ ops, ∃ t ∈ lookupOp stats op, t.2.2 = 0) →
      operator_trailing header (r0 :: data) ops = .error .zeroDivisionError) := by
  constructor
  · intro h
    simp only [operator_trailing, hs, ok_bind]
    exact opsFinalize_ok stats ops h
  · intro h
    simp only [operator_trailing, hs, ok_bind]
    exact opsFinalize_error stats ops h

/-- C3 witness: one selected operator with one period of weight `2`
instantiates the accumulation hypothesis and the nonzero-weight branch. -/
theorem operator_trailing_finalize_witness :
    (accumOps (columnIndex
        ["name", "bet_year", "bet_month", "count_of_bets",
         "avg_leg_count_inclusiveofstraightbets"]) ["A"]
      [["A", "2024", "1", "2", "10"]] =
      .ok [("A", [((2024, 1), 20, 2)])]) ∧
    (((∀ op ∈ ["A"], ∀ t ∈ lookupOp [("A", [((2024, 1), 20, 2)])] op,
        t.2.2 ≠ 0) →
      operator_trailing
        ["name", "bet_year", "bet_month", "count_of_bets",
         "avg_leg_count_inclusiveofstraightbets"]
        (["hdr"] :: [["A", "2024", "1", "2", "10"]]) ["A"] =
        .ok (["A"].map (fun op => (op, trailing_average
          ((lookupOp [("A", [((2024, 1), 20, 2)])] op).map
            (fun t => (t.1, t.2.1 / t.2.2))) 12)))) ∧
    ((∃ op ∈ ["A"], ∃ t ∈ lookupOp [("A", [((2024, 1), 20, 2)])] op,
        t.2.2 = 0) →
      operator_trailing
        ["name", "bet_year", "bet_month", "count_of_bets",
         "avg_leg_count_inclusiveofstraightbets"]
        (["hdr"] :: [["A", "2024", "1", "2", "10"]]) ["A"] =
        .error .zeroDivisionError)) :=
  ⟨by with_unfolding_all rfl,
   operator_trailing_finalize _ _ _ _ _ (by with_unfolding_all rfl)⟩

theorem lastN_length (n : Nat) (l : List Rat) :
    (lastN n l).length = min n l.length := by
  simp only [lastN, List.length_drop]
  rcases Nat.le_total n l.length with h | h
  · rw [min_eq_left h]
    omega
  · rw [min_eq_right h]
    omega

theorem lastN_of_length_le (n : Nat) (l : List Rat) (h : l.length ≤ n) :
    lastN n l = l := by
  simp only [lastN]
  rw [Nat.sub_eq_zero_of_le h]
  exact List.drop_zero l

theorem lastN_append_one (w : Nat) (l : List Rat) (v : Rat) :
    lastN (w + 1) (l ++ [v]) = lastN w l ++ [v] := by
  simp only [lastN, List.length_append, List.length_singleton]
  have hn : l.length + 1 - (w + 1) = l.length - w := by omega
  rw [hn, List.drop_append_of_le_length (by omega)]

theorem lastN_tail (w : Nat) (l : List Rat) (h : w + 1 ≤ l.length) :
    (lastN (w + 1) l).tail = lastN w l := by
  simp only [lastN, List.tail_drop]
  congr 1
  omega

theorem sum_sub_headD (l : List Rat) (h : l ≠ []) :
    l.sum - l.headD 0 = l.tail.sum := by
  cases l with
  | nil => exact absurd rfl h
  | cons x t =>
    simp only [List.sum_cons, List.headD_cons, List.tail_cons]
    ring

/-- The deque loop of `trailing_average` computes, for each period, the
windowed average of all raw values seen so far, provided it starts from a
consistent window state. -/
theorem trailGo_eq_trailSpec (w : Nat) :
    ∀ (pairs : List (Period × Rat)) (processed : List Rat),
      trailGo w pairs (lastN w processed) (lastN w processed).sum =
        trailSpec w processed pairs := by
  intro pairs
  induction pairs with
  | nil => intro processed; rfl
  | cons pv rest ih =>
    rcases pv with ⟨ym, v⟩
    intro processed
    have hlq : (lastN w processed).length = min w processed.length :=
      lastN_length w processed
    simp only [trailGo, trailSpec]
    by_cases hcase : w ≤ processed.length
    · have hq1len : (lastN w processed ++ [v]).length = w + 1 := by
        simp only [List.length_append, List.length_singleton, hlq]
        omega
      rw [if_pos (by rw [hq1len]; omega)]
      have hq1 : lastN w processed ++ [v] = lastN (w + 1) (processed ++ [v]) := by
        rw [lastN_append_one]
      have htail : (lastN w processed ++ [v]).tail = lastN w (processed ++ [v]) := by
        rw [hq1, lastN_tail w (processed ++ [v])
          (by simp only [List.length_append, List.length_singleton]; omega)]
      have hne : lastN w processed ++ [v] ≠ [] := by simp
      have hsum : (lastN w processed).sum + v = (lastN w processed ++ [v]).sum := by
        simp
      have ht2 : (lastN w processed).sum + v - (lastN w processed ++ [v]).headD 0 =
          (lastN w (processed ++ [v])).sum := by
        rw [hsum, sum_sub_headD _ hne, htail]
      rw [ht2, htail, ih (processed ++ [v]), windowAvg]
    · have hle : processed.length ≤ w := by omega
      have hqeq : lastN w processed = processed := lastN_of_length_le w processed hle
      have hle2 : (processed ++ [v]).length ≤ w := by
        simp only [List.length_append, List.length_singleton]
        omega
      rw [hqeq]
      rw [if_neg (by simp only [List.length_append, List.length_singleton]; omega)]
      have hsum2 : processed.sum + v = (processed ++ [v]).sum := by simp
      have ih2 := ih (processed ++ [v])
      rw [lastN_of_length_le w (processed ++ [v]) hle2] at ih2
      rw [hsum2, ih2, windowAvg, lastN_of_length_le w (processed ++ [v]) hle2]

/-- `trailing_average` is the reference windowed-average recursion applied
to the chronologically sorted series. -/
theorem trailing_average_eq_trailSpec (series : List (Period × Rat)) (w : Nat) :
    trailing_average series w = trailSpec w [] (sortPairs series) := by
  have h := trailGo_eq_trailSpec w (sortPairs series) []
  simpa [trailing_average, lastN] using h

theorem trailSpec_keys (w : Nat) :
    ∀ (pairs : List (Period × Rat)) (processed : List Rat),
      (trailSpec w processed pairs).map Prod.fst = pairs.map Prod.fst := by
  intro pairs
  induction pairs with
  | nil => intro processed; rfl
  | cons pv rest ih =>
    rcases pv with ⟨ym, v⟩
    intro processed
    simp only [trailSpec, List.map_cons, ih]

theorem trailSpec_length (w : Nat) (pairs : List (Period × Rat))
    (processed : List Rat) :
    (trailSpec w processed pairs).length = pairs.length := by
  have h := congrArg List.length (trailSpec_keys w pairs processed)
  simpa using h

theorem trailSpec_get (w : Nat) :
    ∀ (pairs : List (Period × Rat)) (processed : List Rat) (i : Nat)
      (hi : i < (trailSpec w processed pairs).length) (hp : i < pairs.length),
      (trailSpec w processed pairs).get ⟨i, hi⟩ =
        ((pairs.get ⟨i, hp⟩).1,
          windowAvg w (processed ++ (pairs.map Prod.snd).take (i + 1))) := by
  intro pairs
  induction pairs with
  | nil => intro processed i hi hp; exact absurd hp (by simp)
  | cons pv rest ih =>
    rcases pv with ⟨ym, v⟩
    intro processed i hi hp
    cases i with
    | zero =>
      simp [trailSpec, List.get]
    | succ j =>
      have hi' : j < (trailSpec w (processed ++ [v]) rest).length := by
        have := hi
        simp only [trailSpec, List.length_cons] at this
        omega
      have hp' : j < rest.length := by
        simp only [List.length_cons] at hp
        omega
      show (trailSpec w (processed ++ [v]) rest).get ⟨j, hi'⟩ = _
      rw [ih (processed ++ [v]) j hi' hp']
      simp only [List.get_cons_succ, List.map_cons, List.take_succ_cons]
      congr 1
      rw [List.append_assoc]
      rfl

theorem sortPairs_perm (series : List (Period × Rat)) :
    (sortPairs series).Perm series :=
  List.perm_insertionSort _ series

theorem sortPairs_sorted (series : List (Period × Rat)) :
    (sortPairs series).Sorted (fun a b => perLe a.1 b.1) :=
  List.sorted_insertionSort _ series

theorem sortPairs_nodup_keys (series : List (Period × Rat))
    (hnd : (series.map Prod.fst).Nodup) :
    ((sortPairs series).map Prod.fst).Nodup :=
  ((sortPairs_perm series).map Prod.fst).nodup_iff.mpr hnd

/-- With distinct keys the sorted series is strictly increasing in its
periods. -/
theorem sortPairs_sorted_strict (series : List (Period × Rat))
    (hnd : (series.map Prod.fst).Nodup) :
    (sortPairs series).Sorted (fun a b => perLt a.1 b.1) := by
  have hs := sortPairs_sorted series
  have hne : (sortPairs series).Pairwise (fun a b => a.1 ≠ b.1) :=
    List.pairwise_map.mp (sortPairs_nodup_keys series hnd)
  exact (hs.and hne).imp (fun h => h.1.resolve_right h.2)

/-- Any permutation of a series with distinct periods sorts to the same
list: the smoother's behaviour is independent of the mapping's iteration
order. -/
theorem sortPairs_eq_of_perm (series series₂ : List (Period × Rat))
    (hnd : (series.map Prod.fst).Nodup) (hp : series.Perm series₂) :
    sortPairs series₂ = sortPairs series := by
  have hnd₂ : (series₂.map Prod.fst).Nodup :=
    (hp.map Prod.fst).nodup_iff.mp hnd
  have hperm : (sortPairs series₂).Perm (sortPairs series) :=
    (sortPairs_perm series₂).trans (hp.symm.trans (sortPairs_perm series).symm)
  exact List.eq_of_perm_of_sorted hperm (sortPairs_sorted_strict series₂ hnd₂)
    (sortPairs_sorted_strict series hnd)

theorem windowAvg_take (w i : Nat) (l : List Rat) (hi : i < l.length) :
    windowAvg w (l.take (i + 1)) =
      (lastN (min (i + 1) w) (l.take (i + 1))).sum /
        ((min (i + 1) w : Nat) : Rat) := by
  have hlen : (l.take (i + 1)).length = i + 1 := by
    rw [List.length_take, min_eq_left (by omega)]
  have heq : lastN w (l.take (i + 1)) = lastN (min (i + 1) w) (l.take (i + 1)) := by
    simp only [lastN, hlen]
    congr 1
    rcases Nat.le_total w (i + 1) with h | h
    · rw [min_eq_right h]
    · rw [min_eq_left h]
      omega
  have hlast : (lastN (min (i + 1) w) (l.take (i + 1))).length = min (i + 1) w := by
    rw [← heq, lastN_length, hlen, min_comm]
  rw [windowAvg, heq, hlast]

/-- C2: for every finite period-to-value mapping with distinct periods and
window `w ≥ 1`, `trailing_average` processes the periods in ascending
`(year, month)` order regardless of the mapping's iteration order (any
permutation of the input yields the identical result), produces exactly one
entry per input period (same key multiset), and the value emitted for the
`i`-th period (0-indexed, chronological) is the sum of the most recent
`min(i+1, w)` raw values divided by `min(i+1, w)`. -/
theorem trailing_average_spec (series : List (Period × Rat)) (w : Nat)
    (_hw : 1 ≤ w) (hnd : (series.map Prod.fst).Nodup) :
    ((trailing_average series w).map Prod.fst =
      (sortPairs series).map Prod.fst) ∧
    ((trailing_average series w).map Prod.fst).Perm (series.map Prod.fst) ∧
    ((trailing_average series w).map Prod.fst).Pairwise (fun a b => perLt a b) ∧
    (∀ (i : Nat) (hi : i < (trailing_average series w).length)
        (hs : i < (sortPairs series).length),
      (trailing_average series w).get ⟨i, hi⟩ =
        (((sortPairs series).get ⟨i, hs⟩).1,
          (lastN (min (i + 1) w)
            (((sortPairs series).map Prod.snd).take (i + 1))).sum /
            ((min (i + 1) w : Nat) : Rat))) ∧
    (∀ series₂, series.Perm series₂ →
      trailing_average series₂ w = trailing_average series w) := by
  have heq := trailing_average_eq_trailSpec series w
  have hkeys : (trailing_average series w).map Prod.fst =
      (sortPairs series).map Prod.fst := by
    rw [heq, trailSpec_keys]
  refine ⟨hkeys, ?_, ?_, ?_, ?_⟩
  · rw [hkeys]
    exact (sortPairs_perm series).map Prod.fst
  · rw [hkeys]
    exact List.pairwise_map.mpr (sortPairs_sorted_strict series hnd)
  · intro i hi hs
    have hi' : i < (trailSpec w [] (sortPairs series)).length := by
      rw [← heq]
      exact hi
    have hget : (trailing_average series w).get ⟨i, hi⟩ =
        (trailSpec w [] (sortPairs series)).get ⟨i, hi'⟩ :=
      List.get_of_eq heq ⟨i, hi⟩
    have hval := trailSpec_get w (sortPairs series) [] i hi' hs
    have hwa := windowAvg_take w i ((sortPairs series).map Prod.snd)
      (by simpa using hs)
    rw [hget, hval]
    simp only [List.nil_append]
    rw [hwa]
  · intro series₂ hp
    rw [trailing_average, trailing_average,
      sortPairs_eq_of_perm series series₂ hnd hp]

/-- C2 witness: a two-period series given in reverse chronological order,
with window `2`, instantiates the smoother theorem with both hypotheses
discharged. -/
theorem trailing_average_spec_witness :
    (1 ≤ 2 ∧
      ((([((2024, 2), 2), ((2024, 1), 1)] : List (Period × Rat))).map
        Prod.fst).Nodup) ∧
    (((trailing_average [((2024, 2), 2), ((2024, 1), 1)] 2).map Prod.fst =
        (sortPairs [((2024, 2), 2), ((2024, 1), 1)]).map Prod.fst) ∧
      ((trailing_average [((2024, 2), 2), ((2024, 1), 1)] 2).map
        Prod.fst).Perm
        (([((2024, 2), 2), ((2024, 1), 1)] : List (Period × Rat)).map
          Prod.fst) ∧
      ((trailing_average [((2024, 2), 2), ((2024, 1), 1)] 2).map
        Prod.fst).Pairwise (fun a b => perLt a b) ∧
      (∀ (i : Nat)
          (hi : i < (trailing_average [((2024, 2), 2), ((2024, 1), 1)] 2).length)
          (hs : i < (sortPairs [((2024, 2), 2), ((2024, 1), 1)]).length),
        (trailing_average [((2024, 2), 2), ((2024, 1), 1)] 2).get ⟨i, hi⟩ =
          (((sortPairs [((2024, 2), 2), ((2024, 1), 1)]).get ⟨i, hs⟩).1,
            (lastN (min (i + 1) 2)
              (((sortPairs [((2024, 2), 2), ((2024, 1), 1)]).map
                Prod.snd).take (i + 1))).sum /
              ((min (i + 1) 2 : Nat) : Rat))) ∧
      (∀ series₂,
        (([((2024, 2), 2), ((2024, 1), 1)] : List (Period × Rat))).Perm
          series₂ →
        trailing_average series₂ 2 =
          trailing_average [((2024, 2), 2), ((2024, 1), 1)] 2)) :=
  ⟨⟨by norm_num, by decide⟩,
   trailing_average_spec [((2024, 2), 2), ((2024, 1), 1)] 2 (by norm_num)
     (by decide)⟩

@[simp]
theorem ok_map {α β : Type} (f : α → β) (a : α) :
    (f <$> (Except.ok a : Except PyErr α)) = .ok (f a) := rfl

@[simp]
theorem error_map {α β : Type} (f : α → β) (e : PyErr) :
    (f <$> (Except.error e : Except PyErr α) : Except PyErr β) = .error e := rfl

/-- `totals[name] += h` appends a fresh name at the end, or keeps the key
list unchanged. -/
theorem addTotal_keys (totals : List (String × Rat)) (name : String) (h : Rat) :
    (addTotal totals name h).map Prod.fst =
      if name ∈ totals.map Prod.fst then totals.map Prod.fst
      else totals.map Prod.fst ++ [name] := by
  induction totals with
  | nil => simp [addTotal]
  | cons x rest ih =>
    rcases x with ⟨n, t⟩
    simp only [addTotal]
    by_cases hn : n = name
    · subst hn
      rw [if_pos rfl]
      simp
    · rw [if_neg hn]
      simp only [List.map_cons]
      rw [ih]
      by_cases hm : name ∈ rest.map Prod.fst
      · rw [if_pos hm, if_pos (by simp [hm])]
      · rw [if_neg hm,
          if_neg (by
            simp only [List.mem_cons]
            rintro (h1 | h1)
            · exact hn h1.symm
            · exact hm h1)]
        simp

theorem addTotal_nodup (totals : List (String × Rat)) (name : String) (h : Rat)
    (hnd : (totals.map Prod.fst).Nodup) :
    ((addTotal totals name h).map Prod.fst).Nodup := by
  rw [addTotal_keys]
  by_cases hm : name ∈ totals.map Prod.fst
  · rw [if_pos hm]
    exact hnd
  · rw [if_neg hm]
    simp [List.nodup_append, hnd, hm]

theorem dedupFirst_nodup : ∀ (l : List String), (dedupFirst l).Nodup := by
  intro l
  induction l with
  | nil => exact List.nodup_nil
  | cons x xs ih =>
    simp only [dedupFirst, List.nodup_cons]
    refine ⟨?_, ih.erase x⟩
    intro hx
    exact absurd ((ih.mem_erase_iff).mp hx).1 (by simp)

/-- Erasing an element already excluded by the filter changes nothing. -/
theorem filter_erase_of_mem (K : List String) (a : String) (ha : a ∈ K) :
    ∀ (l : List String),
      (l.erase a).filter (fun x => x ∉ K) = l.filter (fun x => x ∉ K) := by
  intro l
  induction l with
  | nil => rfl
  | cons b t ih =>
    by_cases hb : b = a
    · subst hb
      rw [List.erase_cons_head]
      rw [List.filter_cons_of_neg (by simpa using ha)]
    · rw [List.erase_cons_tail (by simpa using hb)]
      by_cases hbk : b ∈ K
      · rw [List.filter_cons_of_neg (by simpa using hbk),
          List.filter_cons_of_neg (by simpa using hbk)]
        exact ih
      · rw [List.filter_cons_of_pos (by simpa using hbk),
          List.filter_cons_of_pos (by simpa using hbk), ih]

/-- Filtering out `K ++ [n]` is filtering out `K` after erasing the single
occurrence of `n` (for duplicate-free lists). -/
theorem filter_notmem_append_singleton (K : List String) (n : String) :
    ∀ (l : List String), l.Nodup →
      l.filter (fun x => x ∉ K ++ [n]) =
        (l.erase n).filter (fun x => x ∉ K) := by
  intro l
  induction l with
  | nil => intro _; rfl
  | cons a t ih =>
    intro hnd
    rcases List.nodup_cons.mp hnd with ⟨hat, htnd⟩
    by_cases ha : a = n
    · subst ha
      rw [List.erase_cons_head]
      rw [List.filter_cons_of_neg (by simp)]
      apply List.filter_congr
      intro x hx
      have hxn : x ≠ a := fun he => hat (he ▸ hx)
      simp [hxn]
    · rw [List.erase_cons_tail (by simpa using ha)]
      by_cases hbk : a ∈ K
      · rw [List.filter_cons_of_neg (by simp [hbk]),
          List.filter_cons_of_neg (by simpa using hbk)]
        exact ih htnd
      · rw [List.filter_cons_of_pos (by simp [hbk, ha]),
          List.filter_cons_of_pos (by simpa using hbk), ih htnd]

/-- A successful non-header `top_operators` step reads the name and adds a
handle onto its total. -/
theorem topStep_ok_shape (idx : String → Option Nat) (header : List String)
    (acc : List (String × Rat)) (r : List String) (s : List (String × Rat))
    (hr : r ≠ header) (h : topStep idx header acc r = .ok s) :
    ∃ name handle, getCol idx r "name" = .ok name ∧
      s = addTotal acc name handle := by
  simp only [topStep, if_neg hr] at h
  cases hn : getCol idx r "name" with
  | error e => rw [hn] at h; simp at h
  | ok name =>
    rw [hn] at h
    simp only [ok_bind] at h
    cases hh : getCol idx r "total_bet_handle" with
    | error e => rw [hh] at h; simp at h
    | ok hstr =>
      rw [hh] at h
      simp only [ok_bind] at h
      by_cases he : hstr = ""
      · rw [if_pos he] at h
        exact ⟨name, 0, rfl, (Except.ok.inj h).symm⟩
      · rw [if_neg he] at h
        cases hp : pyFloat hstr with
        | none => rw [hp] at h; simp [toExcept] at h
        | some c =>
          rw [hp] at h
          simp only [toExcept, ok_map] at h
          exact ⟨name, c, rfl, (Except.ok.inj h).symm⟩

/-- Key-order invariant of the totals accumulation: the final key list is
the starting keys followed by the first encounters of the remaining
(non-header) row names that are not already present. -/
theorem computeTotals_keys_aux (idx : String → Option Nat)
    (header : List String) :
    ∀ (rows : List (List String)) (acc totals : List (String × Rat))
      (ns : List String),
      foldME (topStep idx header) acc rows = .ok totals →
      mapE (fun row => getCol idx row "name")
        (rows.filter (fun r => r ≠ header)) = .ok ns →
      totals.map Prod.fst =
        acc.map Prod.fst ++
          (dedupFirst ns).filter (fun x => x ∉ acc.map Prod.fst) := by
  intro rows
  induction rows with
  | nil =>
    intro acc totals ns h hn
    cases h
    cases hn
    simp [dedupFirst]
  | cons r t ih =>
    intro acc totals ns h hn
    by_cases hr : r = header
    · subst hr
      have hstep : topStep idx r acc r = .ok acc := by
        simp only [topStep, if_pos rfl]
        rfl
      simp only [foldME, hstep, ok_bind] at h
      rw [List.filter_cons_of_neg (by simp)] at hn
      exact ih acc totals ns h hn
    · simp only [foldME] at h
      cases hs : topStep idx header acc r with
      | error e => rw [hs] at h; simp at h
      | ok s =>
        rw [hs] at h
        simp only [ok_bind] at h
        obtain ⟨name, handle, hname, hsacc⟩ :=
          topStep_ok_shape idx header acc r s hr hs
        rw [List.filter_cons_of_pos (by simpa using hr)] at hn
        simp only [mapE, hname, ok_bind] at hn
        cases hns : mapE (fun row => getCol idx row "name")
            (t.filter (fun r => r ≠ header)) with
        | error e => rw [hns] at hn; simp at hn
        | ok ns' =>
          rw [hns] at hn
          simp only [ok_bind] at hn
          have hn' : ns = name :: ns' := (Except.ok.inj hn).symm
          subst hn'
          subst hsacc
          have hmain := ih (addTotal acc name handle) totals ns' h hns
          rw [hmain, addTotal_keys]
          simp only [dedupFirst]
          by_cases hm : name ∈ acc.map Prod.fst
          · rw [if_pos hm]
            rw [List.filter_cons_of_neg (by simpa using hm)]
            rw [filter_erase_of_mem (acc.map Prod.fst) name hm]
          · rw [if_neg hm]
            rw [List.filter_cons_of_pos (by simpa using hm)]
            rw [filter_notmem_append_singleton (acc.map Prod.fst) name
              (dedupFirst ns') (dedupFirst_nodup ns')]
            simp

/-- The accumulated totals have duplicate-free keys. -/
theorem computeTotals_nodup_aux (idx : String → Option Nat)
    (header : List String) :
    ∀ (rows : List (List String)) (acc totals : List (String × Rat)),
      (acc.map Prod.fst).Nodup →
      foldME (topStep idx header) acc rows = .ok totals →
      (totals.map Prod.fst).Nodup := by
  intro rows
  induction rows with
  | nil =>
    intro acc totals hnd h
    cases h
    exact hnd
  | cons r t ih =>
    intro acc totals hnd h
    by_cases hr : r = header
    · subst hr
      have hstep : topStep idx r acc r = .ok acc := by
        simp only [topStep, if_pos rfl]
        rfl
      simp only [foldME, hstep, ok_bind] at h
      exact ih acc totals hnd h
    · simp only [foldME] at h
      cases hs : topStep idx header acc r with
      | error e => rw [hs] at h; simp at h
      | ok s =>
        rw [hs] at h
        simp only [ok_bind] at h
        obtain ⟨name, handle, _, hsacc⟩ :=
          topStep_ok_shape idx header acc r s hr hs
        subst hsacc
        exact ih _ totals (addTotal_nodup acc name handle hnd) h

theorem sortTotals_perm (totals : List (String × Rat)) :
    (sortTotals totals).Perm totals :=
  List.perm_insertionSort _ totals

theorem sortTotals_sorted (totals : List (String × Rat)) :
    (sortTotals totals).Sorted (fun p q => q.2 ≤ p.2) :=
  List.sorted_insertionSort _ totals

/-- Inserting an element into the descending sort either heads the group of
its value or leaves that group unchanged — the stability kernel. -/
theorem filter_orderedInsert (x : String × Rat) (c : Rat) :
    ∀ (ys : List (String × Rat)),
      (List.orderedInsert (fun p q => q.2 ≤ p.2) x ys).filter
          (fun p => p.2 = c) =
        if x.2 = c then x :: ys.filter (fun p => p.2 = c)
        else ys.filter (fun p => p.2 = c) := by
  intro ys
  induction ys with
  | nil =>
    by_cases hx : x.2 = c
    · rw [if_pos hx]
      simp [List.orderedInsert, hx]
    · rw [if_neg hx]
      simp [List.orderedInsert, hx]
  | cons y t ih =>
    simp only [List.orderedInsert]
    by_cases hc : y.2 ≤ x.2
    · rw [if_pos hc]
      by_cases hx : x.2 = c
      · rw [if_pos hx, List.filter_cons_of_pos (by simpa using hx)]
      · rw [if_neg hx, List.filter_cons_of_neg (by simpa using hx)]
    · rw [if_neg hc]
      by_cases hy : y.2 = c
      · rw [List.filter_cons_of_pos (by simpa using hy)]
        by_cases hx : x.2 = c
        · exfalso
          exact hc (le_of_eq (hy.trans hx.symm))
        · rw [if_neg hx, ih, if_neg hx,
            List.filter_cons_of_pos (by simpa using hy)]
      · rw [List.filter_cons_of_neg (by simpa using hy)]
        by_cases hx : x.2 = c
        · rw [if_pos hx, ih, if_pos hx,
            List.filter_cons_of_neg (by simpa using hy)]
        · rw [if_neg hx, ih, if_neg hx,
            List.filter_cons_of_neg (by simpa using hy)]

/-- The descending sort of `top_operators` is stable: within each total
value the accumulated (first-encounter) order is preserved exactly. -/
theorem sortTotals_filter (c : Rat) :
    ∀ (totals : List (String × Rat)),
      (sortTotals totals).filter (fun p => p.2 = c) =
        totals.filter (fun p => p.2 = c) := by
  intro totals
  induction totals with
  | nil => rfl
  | cons x t ih =>
    show (List.orderedInsert _ x (sortTotals t)).filter _ = _
    rw [filter_orderedInsert x c (sortTotals t)]
    by_cases hx : x.2 = c
    · rw [if_pos hx, ih, List.filter_cons_of_pos (by simpa using hx)]
    · rw [if_neg hx, ih, List.filter_cons_of_neg (by simpa using hx)]

/-- A two-element sublist survives `take` as soon as its later element
survives, provided the list has no duplicates. -/
theorem sublist_pair_take {α : Type} :
    ∀ (l : List α) (n : Nat) (x y : α), l.Nodup →
      ([x, y] : List α).Sublist l → y ∈ l.take n →
      ([x, y] : List α).Sublist (l.take n) := by
  intro l
  induction l with
  | nil =>
    intro n x y _ hsub _
    exact absurd (hsub.subset (show x ∈ [x, y] by simp)) (by simp)
  | cons a t ih =>
    intro n x y hnd hsub hyn
    rcases List.nodup_cons.mp hnd with ⟨hat, htnd⟩
    cases n with
    | zero => simp at hyn
    | succ m =>
      rw [List.take_succ_cons] at hyn ⊢
      cases hsub with
      | cons _ hsub' =>
        have hy_t : y ∈ t := hsub'.subset (by simp)
        have hya : y ≠ a := fun he => hat (he ▸ hy_t)
        have hy_take : y ∈ t.take m := by
          rcases List.mem_cons.mp hyn with he | hm
          · exact absurd he hya
          · exact hm
        exact (ih m x y htnd hsub' hy_take).cons a
      | cons₂ _ hsub' =>
        have hy_t : y ∈ t := hsub'.subset (by simp)
        have hya : y ≠ a := fun he => hat (he ▸ hy_t)
        have hy_take : y ∈ t.take m := by
          rcases List.mem_cons.mp hyn with he | hm
          · exact absurd he hya
          · exact hm
        exact (List.singleton_sublist.mpr hy_take).cons₂ a

/-- In totals with duplicate-free keys the recorded value of a present pair
is read back by `totalsVal`. -/
theorem totalsVal_eq (totals : List (String × Rat)) (a : String) (c : Rat)
    (hnd : (totals.map Prod.fst).Nodup) (hm : (a, c) ∈ totals) :
    totalsVal totals a = c := by
  rw [totalsVal, findKeyNodup totals hnd a c hm]
  rfl

/-- C5: for every row stream, `top_operators` returns at most 10 category
names, ordered by non-increasing accumulated total of the ranking column
(empty magnitude strings contributing `0` at accumulation); the accumulated
totals are keyed exactly by the first encounters of the category names in
stream order; and for two categories with equal totals whose entries appear
in first-encounter order, whenever the later one made the result the earlier
one precedes it there (stable descending sort with first-encounter
tie-break). -/
theorem top_operators_spec (header : List String) (rows : List (List String))
    (totals : List (String × Rat)) (res : List String) (ns : List String)
    (hc : computeTotals header rows = .ok totals)
    (hr : top_operators header rows = .ok res)
    (hn : rowNames header rows = .ok ns) :
    res.length ≤ 10 ∧
    totals.map Prod.fst = dedupFirst ns ∧
    res.Pairwise (fun a b => totalsVal totals b ≤ totalsVal totals a) ∧
    (∀ (a b : String) (c : Rat),
      ([(a, c), (b, c)] : List (String × Rat)).Sublist totals →
      b ∈ res → ([a, b] : List String).Sublist res) := by
  have hres : res = ((sortTotals totals).take 10).map Prod.fst := by
    simp only [top_operators, hc, ok_bind] at hr
    exact (Except.ok.inj hr).symm
  have hc' : foldME (topStep (columnIndex header) header) [] rows = .ok totals := by
    rw [computeTotals] at hc
    exact hc
  have hn' : mapE (fun row => getCol (columnIndex header) row "name")
      (rows.filter (fun r => r ≠ header)) = .ok ns := by
    rw [rowNames] at hn
    exact hn
  have hnd : (totals.map Prod.fst).Nodup :=
    computeTotals_nodup_aux (columnIndex header) header rows [] totals
      (by simp) hc'
  have hSperm := sortTotals_perm totals
  have hndS : ((sortTotals totals).map Prod.fst).Nodup :=
    (hSperm.map Prod.fst).nodup_iff.mpr hnd
  have hndS' : (sortTotals totals).Nodup := hndS.of_map
  refine ⟨?_, ?_, ?_, ?_⟩
  · rw [hres, List.length_map, List.length_take]
    exact min_le_left 10 _
  · have h := computeTotals_keys_aux (columnIndex header) header rows []
      totals ns hc' hn'
    simpa using h
  · have hsorted := sortTotals_sorted totals
    have htake : ((sortTotals totals).take 10).Pairwise
        (fun p q => q.2 ≤ p.2) :=
      List.Pairwise.sublist (List.take_sublist 10 _) hsorted
    have hmem : ∀ p ∈ (sortTotals totals).take 10,
        totalsVal totals p.1 = p.2 := by
      intro p hp
      have hpS : p ∈ sortTotals totals := (List.take_sublist 10 _).subset hp
      have hpt : p ∈ totals := hSperm.subset hpS
      exact totalsVal_eq totals p.1 p.2 hnd (by simpa using hpt)
    have hpair2 : ((sortTotals totals).take 10).Pairwise
        (fun p q => totalsVal totals q.1 ≤ totalsVal totals p.1) := by
      refine List.Pairwise.imp_of_mem ?_ htake
      intro p q hp hq hle
      rw [hmem p hp, hmem q hq]
      exact hle
    rw [hres]
    exact List.pairwise_map.mpr hpair2
  · intro a b c hsub hbres
    have hsubS : ([(a, c), (b, c)] : List (String × Rat)).Sublist
        (sortTotals totals) := by
      have h1 : ([(a, c), (b, c)] : List (String × Rat)).filter
          (fun p => p.2 = c) = [(a, c), (b, c)] := by simp
      have h2 := hsub.filter (fun p => p.2 = c)
      rw [h1, ← sortTotals_filter c totals] at h2
      exact h2.trans (List.filter_sublist _)
    obtain ⟨q, hq, hqb⟩ := List.mem_map.mp (hres ▸ hbres)
    have hbS : (b, c) ∈ sortTotals totals := hsubS.subset (by simp)
    have hqS : q ∈ sortTotals totals := (List.take_sublist 10 _).subset hq
    have hq_eq : q = (b, c) := keyInj (sortTotals totals) hndS hqS hbS hqb
    have hbtake : (b, c) ∈ (sortTotals totals).take 10 := hq_eq ▸ hq
    have h3 : ([(a, c), (b, c)] : List (String × Rat)).Sublist
        ((sortTotals totals).take 10) :=
      sublist_pair_take (sortTotals totals) 10 (a, c) (b, c) hndS' hsubS hbtake
    have h4 := h3.map Prod.fst
    rw [hres]
    simpa using h4

/-- C5 witness: stream `B:5, A:7, C:5` (with the header row repeated in the
stream and skipped): totals accumulate in first-encounter order, and the
ranking is `A, B, C` with the `B`/`C` tie broken by encounter order. -/
theorem top_operators_spec_witness :
    (computeTotals ["name", "total_bet_handle"]
        [["name", "total_bet_handle"], ["B", "5"], ["A", "7"], ["C", "5"]] =
      .ok [("B", 5), ("A", 7), ("C", 5)]) ∧
    (top_operators ["name", "total_bet_handle"]
        [["name", "total_bet_handle"], ["B", "5"], ["A", "7"], ["C", "5"]] =
      .ok ["A", "B", "C"]) ∧
    (rowNames ["name", "total_bet_handle"]
        [["name", "total_bet_handle"], ["B", "5"], ["A", "7"], ["C", "5"]] =
      .ok ["B", "A", "C"]) ∧
    ((["A", "B", "C"] : List String).length ≤ 10 ∧
      (([("B", 5), ("A", 7), ("C", 5)] : List (String × Rat)).map Prod.fst =
        dedupFirst ["B", "A", "C"]) ∧
      (["A", "B", "C"] : List String).Pairwise
        (fun a b => totalsVal [("B", 5), ("A", 7), ("C", 5)] b ≤
          totalsVal [("B", 5), ("A", 7), ("C", 5)] a) ∧
      (∀ (a b : String) (c : Rat),
        ([(a, c), (b, c)] : List (String × Rat)).Sublist
          [("B", 5), ("A", 7), ("C", 5)] →
        b ∈ (["A", "B", "C"] : List String) →
        ([a, b] : List String).Sublist ["A", "B", "C"])) := by
  have h1 : computeTotals ["name", "total_bet_handle"]
      [["name", "total_bet_handle"], ["B", "5"], ["A", "7"], ["C", "5"]] =
      .ok [("B", 5), ("A", 7), ("C", 5)] := by with_unfolding_all rfl
  have h2 : top_operators ["name", "total_bet_handle"]
      [["name", "total_bet_handle"], ["B", "5"], ["A", "7"], ["C", "5"]] =
      .ok ["A", "B", "C"] := by with_unfolding_all rfl
  have h3 : rowNames ["name", "total_bet_handle"]
      [["name", "total_bet_handle"], ["B", "5"], ["A", "7"], ["C", "5"]] =
      .ok ["B", "A", "C"] := by with_unfolding_all rfl
  exact ⟨h1, h2, h3, top_operators_spec _ _ _ _ _ h1 h2 h3⟩
